import Mathlib

set_option maxRecDepth 8000

/-!
Verification of `duplicate.py` (Find-Duplicate-Photos-Video)

Shallow embedding of the duplicate-finder in `src/duplicate.py`.

Modelling conventions:
* A filesystem path is a `List Char`; `os.sep` is modelled as `'/'` and a
  path's depth is `file_path.count(os.sep)`.
* An image fingerprint (the string of `'1'`/`'0'` characters produced by
  `image_hash`) is modelled as a `List Bool` (`'1'` is `true`).
* Pixel intensities of the decoded, grayscale, 300x300-resized image are
  naturals in 0..255 (the `uint8` values of `np.array(img)`); the grid is a
  `List (List Nat)` of rows, flattened row-major by `List.flatten` exactly as
  `np.array(img).flatten()` does.
* Real arithmetic (`pixels.mean()`, scipy's `hamming`, Python `round(x, 2)`)
  is modelled exactly over `ℚ`; `round(x, 2)` becomes
  `round (100 * x) / 100` with `round` to the nearest integer.
* Python dictionaries become association lists with insert-or-replace
  assignment, which preserves the "at most one binding per key" behaviour of
  `dict`.
* Fallible operations (`PIL` decoding, `sha256`+`getsize` on a file,
  `shutil.move`) are oracles passed to the coordinator: a fingerprint oracle
  `Path → Option Hash` and a move-success oracle `Path → Bool`.  A failing
  oracle corresponds to the operation raising an exception, which
  `process_images` / `process_videos` catch at the per-file `except` boundary.
-/

/-- A filesystem path, as the list of characters of the path string. -/
abbrev FsPath : Type := List Char

/-- The path-separator character `os.sep` (POSIX `'/'`). -/
def osSep : Char := '/'

/-- Depth of a path, `file_path.count(os.sep)`: the number of
path-separator characters occurring in it. -/
def depth (p : FsPath) : Nat := p.count osSep

/-- The constant `COMPARE_SIZE = 300` from `duplicate.py`. -/
def COMPARE_SIZE : Nat := 300

/-- Mean pixel intensity `pixels.mean()` of the flattened (row-major) pixel
grid, as an exact rational. -/
def meanIntensity (grid : List (List Nat)) : ℚ :=
  ((grid.flatten.sum : ℚ)) / (grid.flatten.length : ℚ)

/-- The function `image_hash` from `duplicate.py` lines 19-24, applied to the decoded,
grayscale, resized pixel grid (`np.array(img)`, a list of rows): flatten the
grid row-major, take the mean intensity, and emit one bit per pixel which is
`true` exactly when the pixel intensity is strictly greater than the mean
(`"1" if p > avg else "0"`). -/
def image_hash (grid : List (List Nat)) : List Bool :=
  grid.flatten.map (fun p : Nat => decide ((p : ℚ) > meanIntensity grid))

/-- The error class raised by `get_similarity_score` on misuse: scipy's
`hamming` raises `ValueError` (Python's invalid-argument error class) when the
two vectors do not have equal lengths. -/
inductive SimError : Type
  | invalidArgument : SimError
deriving DecidableEq

/-- Number of positions at which two equal-length lists disagree (the
unnormalised Hamming distance `(u != v).sum()`). -/
def countDiff (u v : List Bool) : Nat :=
  (u.zip v).countP (fun e => decide (e.1 ≠ e.2))

/-- The function `scipy.spatial.distance.hamming(u, v)`: the fraction of positions at which
the two equal-length vectors disagree.  Raises `ValueError` when the lengths
differ. -/
def scipyHamming (u v : List Bool) : Except SimError ℚ :=
  if u.length = v.length then
    Except.ok ((countDiff u v : ℚ) / (u.length : ℚ))
  else
    Except.error SimError.invalidArgument

/-- Python `round(x, 2)` over exact rationals: round `100 * x` to the nearest
integer and divide back by `100`. -/
def pyRound2 (x : ℚ) : ℚ := (round (100 * x) : ℤ) / 100

/-- The function `get_similarity_score` from `duplicate.py` lines 26-29:
`round((1 - hamming(list(hash1), list(hash2))) * 100, 2)`, propagating the
`ValueError` that `hamming` raises on mismatched lengths. -/
def get_similarity_score (hash1 hash2 : List Bool) : Except SimError ℚ :=
  (scipyHamming hash1 hash2).map (fun dist => pyRound2 ((1 - dist) * 100))

section DictOps

variable {κ ν : Type} [DecidableEq κ]

/-- Python `d[k]`-style lookup (`k in d` / `d[k]`) on an association list. -/
def dictGet : List (κ × ν) → κ → Option ν
  | [], _ => none
  | e :: rest, k => if e.1 = k then some e.2 else dictGet rest k

/-- Python `d[k] = v`: replace the binding in place when the key is present,
otherwise append a new binding. -/
def dictSet : List (κ × ν) → κ → ν → List (κ × ν)
  | [], k, v => [(k, v)]
  | e :: rest, k, v => if e.1 = k then (k, v) :: rest else e :: dictSet rest k v

end DictOps

/-- The observable per-file effects of one iteration of the scan loop:
a successful `shutil.move` of a path into `_duplicates`, a `shutil.move`
that raised (caught by the per-file `except`, error logged), or a
fingerprinting step that raised (`PIL` decode failure / `sha256` read
failure, likewise caught and logged with the offending path). -/
inductive Event : Type
  | moved (src : FsPath)
  | moveFailed (src : FsPath)
  | fpError (p : FsPath)
deriving DecidableEq

/-- The image Survivor Table `encountered_hashes` of `process_images`:
fingerprint bit-string → currently kept path. -/
abbrev ImgTable : Type := List (List Bool × FsPath)

/-- One iteration of the `process_images` loop body (`duplicate.py` lines
52-69) on one candidate path, given a fingerprint oracle `fp` (what
`image_hash(file_path)` returns, `none` when decoding raises) and a
move-success oracle `moveOk` (whether `shutil.move` of a given source path
succeeds).  Mirrors the source control flow exactly: on a duplicate with
strictly greater depth the existing file is moved FIRST and only then is the
table entry updated, so a failing move skips the update; otherwise the new
file is moved and the table is unchanged; an absent fingerprint is inserted
with no move.  Any raise lands in the `except` block: the table is left as it
was and the error is logged. -/
def stepImg (moveOk : FsPath → Bool) (fp : FsPath → Option (List Bool))
    (t : ImgTable) (file_path : FsPath) : ImgTable × List Event :=
  match fp file_path with
  | none => (t, [Event.fpError file_path])
  | some img_hash =>
    match dictGet t img_hash with
    | some existing_file =>
      if depth file_path > depth existing_file then
        if moveOk existing_file then
          (dictSet t img_hash file_path, [Event.moved existing_file])
        else
          (t, [Event.moveFailed existing_file])
      else
        if moveOk file_path then
          (t, [Event.moved file_path])
        else
          (t, [Event.moveFailed file_path])
    | none => (dictSet t img_hash file_path, [])

/-- Scan loop of `process_images` over a traversal stream of candidate image
paths, starting from table `t` and accumulating the per-file events in
order. -/
def runImg (moveOk : FsPath → Bool) (fp : FsPath → Option (List Bool))
    (t : ImgTable) : List FsPath → ImgTable × List Event
  | [] => (t, [])
  | f :: fs =>
    let s := stepImg moveOk fp t f
    let r := runImg moveOk fp s.1 fs
    (r.1, s.2 ++ r.2)

/-- Whether the `try` block of the `process_images` loop body raises on this
candidate: either fingerprinting raises, or the `shutil.move` chosen by the
depth comparison raises. -/
def stepImgRaises (moveOk : FsPath → Bool) (fp : FsPath → Option (List Bool))
    (t : ImgTable) (file_path : FsPath) : Bool :=
  match fp file_path with
  | none => true
  | some img_hash =>
    match dictGet t img_hash with
    | some existing_file =>
      if depth file_path > depth existing_file then !moveOk existing_file
      else !moveOk file_path
    | none => false

/-- The video Survivor Table `encountered_hashes` of `process_videos`:
sha256 hex digest → (currently kept path, its size in bytes). -/
abbrev VidTable : Type := List (List Char × (FsPath × Nat))

/-- One iteration of the `process_videos` loop body (`duplicate.py` lines
84-102), with a fingerprint oracle returning what
`(sha256_hash(file_path), os.path.getsize(file_path))` produce (`none` when
either raises) and the same move-success oracle.  The stored size plays no
part in the decision; only the paths' depths are compared. -/
def stepVid (moveOk : FsPath → Bool)
    (fp : FsPath → Option (List Char × Nat))
    (t : VidTable) (file_path : FsPath) : VidTable × List Event :=
  match fp file_path with
  | none => (t, [Event.fpError file_path])
  | some fh =>
    match dictGet t fh.1 with
    | some existing =>
      if depth file_path > depth existing.1 then
        if moveOk existing.1 then
          (dictSet t fh.1 (file_path, fh.2), [Event.moved existing.1])
        else
          (t, [Event.moveFailed existing.1])
      else
        if moveOk file_path then
          (t, [Event.moved file_path])
        else
          (t, [Event.moveFailed file_path])
    | none => (dictSet t fh.1 (file_path, fh.2), [])

/-- Scan loop of `process_videos` over a traversal stream of candidate video
paths. -/
def runVid (moveOk : FsPath → Bool) (fp : FsPath → Option (List Char × Nat))
    (t : VidTable) : List FsPath → VidTable × List Event
  | [] => (t, [])
  | f :: fs =>
    let s := stepVid moveOk fp t f
    let r := runVid moveOk fp s.1 fs
    (r.1, s.2 ++ r.2)

/-- Whether the `try` block of the `process_videos` loop body raises on this
candidate. -/
def stepVidRaises (moveOk : FsPath → Bool)
    (fp : FsPath → Option (List Char × Nat))
    (t : VidTable) (file_path : FsPath) : Bool :=
  match fp file_path with
  | none => true
  | some fh =>
    match dictGet t fh.1 with
    | some existing =>
      if depth file_path > depth existing.1 then !moveOk existing.1
      else !moveOk file_path
    | none => false

/-- Unfolding `countDiff` over a cons on both sides. -/
lemma countDiff_cons (a b : Bool) (u v : List Bool) :
    countDiff (a :: u) (b :: v) = countDiff u v + (if a ≠ b then 1 else 0) := by
  simp [countDiff, List.countP_cons]

/-- A list never disagrees with itself. -/
lemma countDiff_self (u : List Bool) : countDiff u u = 0 := by
  induction u with
  | nil => rfl
  | cons a l ih => simp [countDiff_cons, ih]

/-- The number of disagreeing positions is at most the length. -/
lemma countDiff_le_length (u v : List Bool) : countDiff u v ≤ u.length := by
  calc countDiff u v ≤ (u.zip v).length := List.countP_le_length _
  _ ≤ u.length := by rw [List.length_zip]; exact Nat.min_le_left _ _

/-- On equal-length inputs, `get_similarity_score` returns the rounded
percentage determined by the disagreement fraction. -/
lemma get_similarity_score_eq (A B : List Bool) (h : A.length = B.length) :
    get_similarity_score A B =
      Except.ok (pyRound2 ((1 - (countDiff A B : ℚ) / (A.length : ℚ)) * 100)) := by
  unfold get_similarity_score scipyHamming
  rw [if_pos h]
  rfl

/-- Rounding characterisation: `pyRound2 x = 100` exactly when `100 * x`
rounds to the integer `10000`. -/
lemma pyRound2_eq_hundred_iff (x : ℚ) :
    pyRound2 x = 100 ↔ (round (100 * x) : ℤ) = 10000 := by
  unfold pyRound2
  rw [div_eq_iff (by norm_num : (100 : ℚ) ≠ 0)]
  norm_num
  exact_mod_cast Iff.rfl

/-- C9: `get_similarity_score` is defined only for fingerprints of equal
length; on mismatched lengths it fails with the `InvalidArgument`-class error
(`ValueError` raised by scipy's `hamming`) instead of returning a score. -/
theorem C9_mismatched_lengths_error (A B : List Bool)
    (h : A.length ≠ B.length) :
    get_similarity_score A B = Except.error SimError.invalidArgument := by
  unfold get_similarity_score scipyHamming
  rw [if_neg h]
  rfl

/-- Witness for C9 at a concrete mismatched-length pair. -/
theorem C9_mismatched_lengths_error_witness :
    [true].length ≠ ([] : List Bool).length ∧
    get_similarity_score [true] [] = Except.error SimError.invalidArgument :=
  ⟨by decide, C9_mismatched_lengths_error [true] [] (by decide)⟩

/-- C5: for equal-length fingerprints of positive length `N` differing in
exactly `k` positions, `get_similarity_score` returns
`round((1 - k/N) * 100, 2)`; in particular every nonempty fingerprint has
similarity `100.0` with itself. -/
theorem C5_similarity_formula :
    (∀ (A B : List Bool) (N k : Nat), A.length = N → B.length = N → 0 < N →
      countDiff A B = k →
      get_similarity_score A B =
        Except.ok (pyRound2 ((1 - (k : ℚ) / (N : ℚ)) * 100)))
    ∧ ∀ F : List Bool, F ≠ [] →
      get_similarity_score F F = Except.ok (100 : ℚ) := by
  constructor
  · intro A B N k hA hB _ hk
    rw [get_similarity_score_eq A B (hA.trans hB.symm), hk, hA]
  · intro F _
    rw [get_similarity_score_eq F F rfl, countDiff_self]
    have h100 : pyRound2 ((1 - (0 : ℚ) / (F.length : ℚ)) * 100) = 100 := by
      rw [pyRound2_eq_hundred_iff]
      norm_num
    rw [Nat.cast_zero, h100]

/-- Witness for C5 at concrete inputs. -/
theorem C5_similarity_formula_witness :
    ([true, false].length = 2 ∧ [true, true].length = 2 ∧ 0 < 2 ∧
      countDiff [true, false] [true, true] = 1 ∧
      get_similarity_score [true, false] [true, true] =
        Except.ok (pyRound2 ((1 - (1 : ℚ) / (2 : ℚ)) * 100))) ∧
    ([true] ≠ ([] : List Bool) ∧
      get_similarity_score [true] [true] = Except.ok (100 : ℚ)) :=
  ⟨⟨by decide, by decide, by decide, by decide,
    C5_similarity_formula.1 [true, false] [true, true] 2 1 (by decide)
      (by decide) (by decide) (by decide)⟩,
   ⟨by decide, C5_similarity_formula.2 [true] (by decide)⟩⟩

/-- Counterexample to C3: two distinct fingerprints of the same length
(25000 bits, differing in exactly one position) whose similarity score is
nevertheless exactly `100.0`, because `round((1 - 1/25000) * 100, 2)` is
`100.0`.  Hence score `100` does not imply fingerprint equality. -/
theorem C3_counterexample_score_100_without_eq :
    (List.replicate 25000 true).length =
      (false :: List.replicate 24999 true).length
    ∧ get_similarity_score (List.replicate 25000 true)
        (false :: List.replicate 24999 true) = Except.ok (100 : ℚ)
    ∧ List.replicate 25000 true ≠ false :: List.replicate 24999 true := by
  have hlen : (List.replicate 25000 true).length =
      (false :: List.replicate 24999 true).length := by
    rw [List.length_replicate, List.length_cons, List.length_replicate]
  refine ⟨hlen, ?_, ?_⟩
  · have hcd : countDiff (List.replicate 25000 true)
        (false :: List.replicate 24999 true) = 1 := by
      rw [List.replicate_succ, countDiff_cons, countDiff_self]
      rfl
    rw [get_similarity_score_eq _ _ hlen, hcd, List.length_replicate]
    have h100 : pyRound2 ((1 - ((1 : Nat) : ℚ) / ((25000 : Nat) : ℚ)) * 100)
        = 100 := by
      rw [pyRound2_eq_hundred_iff, round_eq]
      norm_num
    rw [h100]
  · rw [List.replicate_succ]
    intro h
    injection h with h1 _
    exact Bool.noConfusion h1

/-- C3 (amended): for equal-length nonempty fingerprints the similarity score
is exactly `100` if and only if the number `k` of differing bit positions
satisfies `20000 * k ≤ N` (`N` the common length), i.e. the disagreement
fraction is at most `1/20000`.  Equality of the fingerprints (`k = 0`) is
sufficient but not necessary, so the coordinator's direct-equality test is
strictly stronger than the `score == 100` test. -/
theorem C3_amended_score_100_iff :
    ∀ A B : List Bool, A.length = B.length → A ≠ [] →
      (get_similarity_score A B = Except.ok (100 : ℚ) ↔
        20000 * countDiff A B ≤ A.length) := by
  intro A B hlen hne
  have hNpos : 0 < A.length := List.length_pos.mpr hne
  have hN : (0 : ℚ) < (A.length : ℚ) := by exact_mod_cast hNpos
  have hk0 : (0 : ℚ) ≤ (countDiff A B : ℚ) := Nat.cast_nonneg _
  rw [get_similarity_score_eq A B hlen]
  rw [show (Except.ok (pyRound2 ((1 - (countDiff A B : ℚ) / (A.length : ℚ)) * 100))
        = (Except.ok (100 : ℚ) : Except SimError ℚ)) ↔
      pyRound2 ((1 - (countDiff A B : ℚ) / (A.length : ℚ)) * 100) = 100 from
    ⟨fun h => by injection h, fun h => by rw [h]⟩]
  rw [pyRound2_eq_hundred_iff, round_eq, Int.floor_eq_iff]
  have key : (100 * ((1 - (countDiff A B : ℚ) / (A.length : ℚ)) * 100) + 1/2 : ℚ)
      = 10000 - 10000 * ((countDiff A B : ℚ) / (A.length : ℚ)) + 1/2 := by
    ring
  constructor
  · rintro ⟨h1, _⟩
    rw [key] at h1
    have h2 : 10000 * ((countDiff A B : ℚ) / (A.length : ℚ)) ≤ 1/2 := by
      push_cast at h1
      linarith
    rw [← mul_div_assoc, div_le_iff₀ hN] at h2
    have h3 : (20000 : ℚ) * (countDiff A B : ℚ) ≤ (A.length : ℚ) := by linarith
    exact_mod_cast h3
  · intro h
    have hq : (20000 : ℚ) * (countDiff A B : ℚ) ≤ (A.length : ℚ) := by
      exact_mod_cast h
    have h2 : 10000 * ((countDiff A B : ℚ) / (A.length : ℚ)) ≤ 1/2 := by
      rw [← mul_div_assoc, div_le_iff₀ hN]
      linarith
    have h3 : (0 : ℚ) ≤ 10000 * ((countDiff A B : ℚ) / (A.length : ℚ)) := by
      have := div_nonneg hk0 (le_of_lt hN)
      linarith
    constructor
    · rw [key]
      push_cast
      linarith
    · rw [key]
      push_cast
      linarith

/-- Witness for the amended C3 at a concrete input. -/
theorem C3_amended_score_100_iff_witness :
    [true].length = [true].length ∧ [true] ≠ ([] : List Bool) ∧
      (get_similarity_score [true] [true] = Except.ok (100 : ℚ) ↔
        20000 * countDiff [true] [true] ≤ [true].length) :=
  ⟨rfl, by decide, C3_amended_score_100_iff [true] [true] rfl (by decide)⟩

/-- Length of the row-major flattening of a grid of constant-width rows. -/
lemma flatten_length_const {l : List (List Nat)} {m : Nat}
    (h2 : ∀ row ∈ l, row.length = m) : l.flatten.length = l.length * m := by
  induction l with
  | nil => simp
  | cons r rs ih =>
    have hr : r.length = m := h2 r (List.mem_cons_self r rs)
    have hrs := ih (fun row hrow => h2 row (List.mem_cons_of_mem r hrow))
    simp only [List.flatten_cons, List.length_append, List.length_cons, hrs, hr]
    ring

/-- C6: on a successfully decoded image (a 300x300 grid of grayscale
intensities), `image_hash` returns a bit string of length
`COMPARE_SIZE² = 90000`, one bit per pixel of the row-major flattening, and
bit `i` is set exactly when pixel `i`'s intensity is strictly greater than
the mean intensity of the grid. -/
theorem C6_image_hash_bit_string :
    ∀ grid : List (List Nat), grid.length = COMPARE_SIZE →
      (∀ row ∈ grid, row.length = COMPARE_SIZE) →
      (image_hash grid).length = COMPARE_SIZE * COMPARE_SIZE ∧
      (image_hash grid).length = 90000 ∧
      ∀ i : Nat, i < 90000 →
        ((image_hash grid).getD i false = true ↔
          ((grid.flatten.getD i 0 : Nat) : ℚ) > meanIntensity grid) := by
  intro grid h1 h2
  have hfl : grid.flatten.length = 90000 := by
    rw [flatten_length_const h2, h1]
    norm_num [COMPARE_SIZE]
  have hlen : (image_hash grid).length = 90000 := by
    simp only [image_hash, List.length_map]
    exact hfl
  refine ⟨?_, hlen, ?_⟩
  · rw [hlen]
    norm_num [COMPARE_SIZE]
  · intro i hi
    have hi' : i < grid.flatten.length := by rw [hfl]; exact hi
    have him : i <
        (grid.flatten.map
          (fun p : Nat => decide ((p : ℚ) > meanIntensity grid))).length := by
      rw [List.length_map]
      exact hi'
    simp only [image_hash]
    rw [List.getD_eq_getElem _ _ him, List.getElem_map,
      List.getD_eq_getElem _ _ hi']
    exact decide_eq_true_iff

/-- Witness for C6 at a concrete uniform 300x300 grid. -/
theorem C6_image_hash_bit_string_witness :
    (List.replicate 300 (List.replicate 300 5)).length = COMPARE_SIZE ∧
    (∀ row ∈ List.replicate 300 (List.replicate 300 5),
      row.length = COMPARE_SIZE) ∧
    ((image_hash (List.replicate 300 (List.replicate 300 5))).length =
        COMPARE_SIZE * COMPARE_SIZE ∧
      (image_hash (List.replicate 300 (List.replicate 300 5))).length = 90000 ∧
      ∀ i : Nat, i < 90000 →
        ((image_hash (List.replicate 300 (List.replicate 300 5))).getD i false
            = true ↔
          (((List.replicate 300 (List.replicate 300 5)).flatten.getD i 0 :
              Nat) : ℚ) >
            meanIntensity (List.replicate 300 (List.replicate 300 5)))) := by
  have hrows : ∀ row ∈ List.replicate 300 (List.replicate 300 (5 : Nat)),
      row.length = COMPARE_SIZE := by
    intro row hrow
    rw [List.eq_of_mem_replicate hrow]
    simp [COMPARE_SIZE]
  have hlen : (List.replicate 300 (List.replicate 300 (5 : Nat))).length
      = COMPARE_SIZE := by simp [COMPARE_SIZE]
  exact ⟨hlen, hrows, C6_image_hash_bit_string _ hlen hrows⟩

/-- On a grid whose pixels all share the intensity `c`, the mean intensity is
`c` itself. -/
lemma meanIntensity_const {g : List (List Nat)} {c : Nat}
    (hne : g.flatten.length ≠ 0) (hc : ∀ p ∈ g.flatten, p = c) :
    meanIntensity g = (c : ℚ) := by
  obtain ⟨n, hn⟩ : ∃ n, g.flatten.length = n := ⟨_, rfl⟩
  have hnz : n ≠ 0 := hn ▸ hne
  have hrep : g.flatten = List.replicate n c := by
    rw [← hn]
    exact List.eq_replicate_of_mem hc
  rw [meanIntensity, hrep, List.sum_replicate, List.length_replicate,
    smul_eq_mul]
  have hq : ((n : ℚ)) ≠ 0 := Nat.cast_ne_zero.mpr hnz
  push_cast
  field_simp

/-- Every uniform 300x300 grid hashes to the all-zeros bit string. -/
lemma image_hash_uniform {g : List (List Nat)} {c : Nat}
    (h1 : g.length = COMPARE_SIZE) (h2 : ∀ row ∈ g, row.length = COMPARE_SIZE)
    (hc : ∀ p ∈ g.flatten, p = c) :
    image_hash g = List.replicate (COMPARE_SIZE * COMPARE_SIZE) false := by
  have hfl : g.flatten.length = COMPARE_SIZE * COMPARE_SIZE := by
    rw [flatten_length_const h2, h1]
  have hne : g.flatten.length ≠ 0 := by
    rw [hfl]
    norm_num [COMPARE_SIZE]
  have hmean := meanIntensity_const hne hc
  have hrep : g.flatten = List.replicate (COMPARE_SIZE * COMPARE_SIZE) c := by
    rw [← hfl]
    exact List.eq_replicate_of_mem hc
  simp only [image_hash]
  rw [hrep, List.map_replicate, hmean]
  simp

/-- C10: any image whose grayscale pixels after the 300x300 resize are all
equal hashes to the all-zeros 90000-bit string (the threshold test is a
strict `>` against the mean), so any two such uniform images receive
identical fingerprints and are treated as duplicates of each other. -/
theorem C10_uniform_images :
    ∀ (g1 g2 : List (List Nat)) (c1 c2 : Nat),
      g1.length = COMPARE_SIZE → (∀ row ∈ g1, row.length = COMPARE_SIZE) →
      (∀ p ∈ g1.flatten, p = c1) →
      g2.length = COMPARE_SIZE → (∀ row ∈ g2, row.length = COMPARE_SIZE) →
      (∀ p ∈ g2.flatten, p = c2) →
      image_hash g1 = List.replicate (COMPARE_SIZE * COMPARE_SIZE) false ∧
      image_hash g1 = image_hash g2 := by
  intro g1 g2 c1 c2 ha1 ha2 ha3 hb1 hb2 hb3
  have u1 := image_hash_uniform ha1 ha2 ha3
  have u2 := image_hash_uniform hb1 hb2 hb3
  exact ⟨u1, u1.trans u2.symm⟩

/-- Witness for C10 at two concrete uniform grids of different intensities. -/
theorem C10_uniform_images_witness :
    ((List.replicate 300 (List.replicate 300 0)).length = COMPARE_SIZE ∧
      (List.replicate 300 (List.replicate 300 7)).length = COMPARE_SIZE) ∧
    (image_hash (List.replicate 300 (List.replicate 300 0)) =
        List.replicate (COMPARE_SIZE * COMPARE_SIZE) false ∧
      image_hash (List.replicate 300 (List.replicate 300 0)) =
        image_hash (List.replicate 300 (List.replicate 300 7))) := by
  have hrows0 : ∀ row ∈ List.replicate 300 (List.replicate 300 (0 : Nat)),
      row.length = COMPARE_SIZE := by
    intro row hrow
    rw [List.eq_of_mem_replicate hrow]
    simp [COMPARE_SIZE]
  have hrows7 : ∀ row ∈ List.replicate 300 (List.replicate 300 (7 : Nat)),
      row.length = COMPARE_SIZE := by
    intro row hrow
    rw [List.eq_of_mem_replicate hrow]
    simp [COMPARE_SIZE]
  have hc0 : ∀ p ∈ (List.replicate 300 (List.replicate 300 (0 : Nat))).flatten,
      p = 0 := by
    intro p hp
    obtain ⟨l, hl, hpl⟩ := List.mem_flatten.mp hp
    rw [List.eq_of_mem_replicate hl] at hpl
    exact List.eq_of_mem_replicate hpl
  have hc7 : ∀ p ∈ (List.replicate 300 (List.replicate 300 (7 : Nat))).flatten,
      p = 7 := by
    intro p hp
    obtain ⟨l, hl, hpl⟩ := List.mem_flatten.mp hp
    rw [List.eq_of_mem_replicate hl] at hpl
    exact List.eq_of_mem_replicate hpl
  have hl0 : (List.replicate 300 (List.replicate 300 (0 : Nat))).length
      = COMPARE_SIZE := by simp [COMPARE_SIZE]
  have hl7 : (List.replicate 300 (List.replicate 300 (7 : Nat))).length
      = COMPARE_SIZE := by simp [COMPARE_SIZE]
  exact ⟨⟨hl0, hl7⟩,
    C10_uniform_images _ _ 0 7 hl0 hrows0 hc0 hl7 hrows7 hc7⟩

section DictLemmas

variable {κ ν : Type} [DecidableEq κ]

/-- Unfolding lemma for `dictGet` on a cons cell. -/
lemma dictGet_cons (a : κ) (b : ν) (rest : List (κ × ν)) (k : κ) :
    dictGet ((a, b) :: rest) k = if a = k then some b else dictGet rest k :=
  rfl

/-- Unfolding lemma for `dictSet` on a cons cell. -/
lemma dictSet_cons (a : κ) (b : ν) (rest : List (κ × ν)) (k : κ) (v : ν) :
    dictSet ((a, b) :: rest) k v =
      if a = k then (k, v) :: rest else (a, b) :: dictSet rest k v :=
  rfl

/-- Assignment followed by lookup of the same key yields the new value. -/
lemma dictGet_dictSet_self (t : List (κ × ν)) (k : κ) (v : ν) :
    dictGet (dictSet t k v) k = some v := by
  induction t with
  | nil => rw [dictSet, dictGet_cons, if_pos rfl]
  | cons e rest ih =>
    obtain ⟨a, b⟩ := e
    by_cases h : a = k
    · rw [dictSet_cons, if_pos h, dictGet_cons, if_pos rfl]
    · rw [dictSet_cons, if_neg h, dictGet_cons, if_neg h]
      exact ih

/-- Assignment leaves lookups of other keys unchanged. -/
lemma dictGet_dictSet_ne (t : List (κ × ν)) (k k' : κ) (v : ν)
    (h : k' ≠ k) : dictGet (dictSet t k v) k' = dictGet t k' := by
  induction t with
  | nil =>
    rw [dictSet, dictGet_cons, if_neg (fun hh => h hh.symm), dictGet]
  | cons e rest ih =>
    obtain ⟨a, b⟩ := e
    by_cases ha : a = k
    · have hak' : ¬ a = k' := fun hh => h (hh ▸ ha)
      rw [dictSet_cons, if_pos ha, dictGet_cons, dictGet_cons,
        if_neg (fun hh => h hh.symm), if_neg hak']
    · rw [dictSet_cons, if_neg ha, dictGet_cons, dictGet_cons]
      by_cases ha' : a = k'
      · rw [if_pos ha', if_pos ha']
      · rw [if_neg ha', if_neg ha']
        exact ih

/-- A successful lookup is a member of the association list. -/
lemma dictGet_mem {t : List (κ × ν)} {k : κ} {v : ν}
    (h : dictGet t k = some v) : (k, v) ∈ t := by
  induction t with
  | nil => cases h
  | cons e rest ih =>
    obtain ⟨a, b⟩ := e
    by_cases ha : a = k
    · rw [dictGet_cons, if_pos ha] at h
      injection h with hv
      rw [← ha, ← hv]
      exact List.mem_cons_self _ _
    · rw [dictGet_cons, if_neg ha] at h
      exact List.mem_cons_of_mem _ (ih h)

/-- Lookup fails exactly when the key is absent from the key list. -/
lemma dictGet_eq_none_iff {t : List (κ × ν)} {k : κ} :
    dictGet t k = none ↔ k ∉ t.map Prod.fst := by
  induction t with
  | nil => simp [dictGet]
  | cons e rest ih =>
    obtain ⟨a, b⟩ := e
    by_cases ha : a = k
    · rw [dictGet_cons, if_pos ha]
      simp [ha]
    · rw [dictGet_cons, if_neg ha]
      simp only [List.map_cons, List.mem_cons, ih]
      constructor
      · intro hk hor
        rcases hor with hor | hor
        · exact ha hor.symm
        · exact hk hor
      · intro hk hmem
        exact hk (Or.inr hmem)

/-- Every element of an updated association list is the new binding or an
element of the original list. -/
lemma mem_dictSet {t : List (κ × ν)} {k : κ} {v : ν} {e : κ × ν}
    (h : e ∈ dictSet t k v) : e = (k, v) ∨ e ∈ t := by
  induction t with
  | nil =>
    rw [dictSet] at h
    exact Or.inl (List.mem_singleton.mp h)
  | cons f rest ih =>
    obtain ⟨a, b⟩ := f
    by_cases ha : a = k
    · rw [dictSet_cons, if_pos ha] at h
      rcases List.mem_cons.mp h with h1 | h1
      · exact Or.inl h1
      · exact Or.inr (List.mem_cons_of_mem _ h1)
    · rw [dictSet_cons, if_neg ha] at h
      rcases List.mem_cons.mp h with h1 | h1
      · exact Or.inr (h1 ▸ List.mem_cons_self _ _)
      · rcases ih h1 with h2 | h2
        · exact Or.inl h2
        · exact Or.inr (List.mem_cons_of_mem _ h2)

/-- Replacing the value at an already-present key leaves the key list
unchanged. -/
lemma keys_dictSet_of_some (t : List (κ × ν)) (k : κ) (v w : ν)
    (h : dictGet t k = some w) :
    (dictSet t k v).map Prod.fst = t.map Prod.fst := by
  induction t with
  | nil => cases h
  | cons e rest ih =>
    obtain ⟨a, b⟩ := e
    by_cases ha : a = k
    · rw [dictSet_cons, if_pos ha, List.map_cons, List.map_cons, ha]
    · rw [dictGet_cons, if_neg ha] at h
      rw [dictSet_cons, if_neg ha, List.map_cons, List.map_cons, ih h]

/-- Assignment at an absent key appends that key to the key list. -/
lemma keys_dictSet_of_none (t : List (κ × ν)) (k : κ) (v : ν)
    (h : dictGet t k = none) :
    (dictSet t k v).map Prod.fst = t.map Prod.fst ++ [k] := by
  induction t with
  | nil => rw [dictSet]; rfl
  | cons e rest ih =>
    obtain ⟨a, b⟩ := e
    by_cases ha : a = k
    · rw [dictGet_cons, if_pos ha] at h
      cases h
    · rw [dictGet_cons, if_neg ha] at h
      rw [dictSet_cons, if_neg ha, List.map_cons, List.map_cons, ih h,
        List.cons_append]

/-- With pairwise-distinct keys, membership determines the lookup result. -/
lemma dictGet_of_mem_nodup {t : List (κ × ν)}
    (hnd : (t.map Prod.fst).Nodup) {k : κ} {v : ν} (h : (k, v) ∈ t) :
    dictGet t k = some v := by
  induction t with
  | nil => cases h
  | cons e rest ih =>
    obtain ⟨a, b⟩ := e
    rw [List.map_cons, List.nodup_cons] at hnd
    rcases List.mem_cons.mp h with h1 | h1
    · injection h1 with h1a h1b
      rw [dictGet_cons, if_pos h1a.symm, h1b]
    · have ha : a ≠ k := by
        intro hk
        exact hnd.1 (hk ▸ List.mem_map.mpr ⟨(k, v), h1, rfl⟩)
      rw [dictGet_cons, if_neg ha]
      exact ih hnd.2 h1

end DictLemmas

section StepLemmas

variable {moveOk : FsPath → Bool} {fpI : FsPath → Option (List Bool)}
variable {fpV : FsPath → Option (List Char × Nat)}

/-- Fingerprinting raised: the error is logged, the table untouched. -/
lemma stepImg_fpError {t : ImgTable} {f : FsPath} (hfp : fpI f = none) :
    stepImg moveOk fpI t f = (t, [Event.fpError f]) := by
  simp only [stepImg, hfp]

/-- Unknown fingerprint: record the candidate, no relocation. -/
lemma stepImg_record {t : ImgTable} {f : FsPath} {h : List Bool}
    (hfp : fpI f = some h) (hnew : dictGet t h = none) :
    stepImg moveOk fpI t f = (dictSet t h f, []) := by
  simp only [stepImg, hfp, hnew]

/-- Known fingerprint, deeper candidate, move succeeds: the shallower
existing file is relocated and the entry replaced by the candidate. -/
lemma stepImg_replace {t : ImgTable} {f ex : FsPath} {h : List Bool}
    (hfp : fpI f = some h) (hex : dictGet t h = some ex)
    (hd : depth ex < depth f) (hmv : moveOk ex = true) :
    stepImg moveOk fpI t f = (dictSet t h f, [Event.moved ex]) := by
  simp only [stepImg, hfp, hex, if_pos hd, hmv]
  rfl

/-- Known fingerprint, deeper candidate, but the move of the existing file
raises: the exception skips the table update, so the table is unchanged. -/
lemma stepImg_replaceFail {t : ImgTable} {f ex : FsPath} {h : List Bool}
    (hfp : fpI f = some h) (hex : dictGet t h = some ex)
    (hd : depth ex < depth f) (hmv : moveOk ex = false) :
    stepImg moveOk fpI t f = (t, [Event.moveFailed ex]) := by
  simp only [stepImg, hfp, hex, if_pos hd, hmv]
  rfl

/-- Known fingerprint, candidate not deeper, move succeeds: the candidate is
relocated and the table entry is unchanged. -/
lemma stepImg_qNew {t : ImgTable} {f ex : FsPath} {h : List Bool}
    (hfp : fpI f = some h) (hex : dictGet t h = some ex)
    (hd : ¬ depth ex < depth f) (hmv : moveOk f = true) :
    stepImg moveOk fpI t f = (t, [Event.moved f]) := by
  simp only [stepImg, hfp, hex, if_neg hd, hmv]
  rfl

/-- Known fingerprint, candidate not deeper, but the move of the candidate
raises: no observable effect beyond the logged error. -/
lemma stepImg_qNewFail {t : ImgTable} {f ex : FsPath} {h : List Bool}
    (hfp : fpI f = some h) (hex : dictGet t h = some ex)
    (hd : ¬ depth ex < depth f) (hmv : moveOk f = false) :
    stepImg moveOk fpI t f = (t, [Event.moveFailed f]) := by
  simp only [stepImg, hfp, hex, if_neg hd, hmv]
  rfl

/-- Fingerprinting (hash or size) raised in the video loop. -/
lemma stepVid_fpError {t : VidTable} {f : FsPath} (hfp : fpV f = none) :
    stepVid moveOk fpV t f = (t, [Event.fpError f]) := by
  simp only [stepVid, hfp]

/-- Unknown digest: record candidate path and size, no relocation. -/
lemma stepVid_record {t : VidTable} {f : FsPath} {h : List Char} {sz : Nat}
    (hfp : fpV f = some (h, sz)) (hnew : dictGet t h = none) :
    stepVid moveOk fpV t f = (dictSet t h (f, sz), []) := by
  simp only [stepVid, hfp, hnew]

/-- Known digest, deeper candidate, move succeeds. -/
lemma stepVid_replace {t : VidTable} {f : FsPath} {h : List Char}
    {sz : Nat} {ex : FsPath × Nat}
    (hfp : fpV f = some (h, sz)) (hex : dictGet t h = some ex)
    (hd : depth ex.1 < depth f) (hmv : moveOk ex.1 = true) :
    stepVid moveOk fpV t f =
      (dictSet t h (f, sz), [Event.moved ex.1]) := by
  simp only [stepVid, hfp, hex, if_pos hd, hmv]
  rfl

/-- Known digest, deeper candidate, failing move: table unchanged. -/
lemma stepVid_replaceFail {t : VidTable} {f : FsPath} {h : List Char}
    {sz : Nat} {ex : FsPath × Nat}
    (hfp : fpV f = some (h, sz)) (hex : dictGet t h = some ex)
    (hd : depth ex.1 < depth f) (hmv : moveOk ex.1 = false) :
    stepVid moveOk fpV t f = (t, [Event.moveFailed ex.1]) := by
  simp only [stepVid, hfp, hex, if_pos hd, hmv]
  rfl

/-- Known digest, candidate not deeper, move succeeds. -/
lemma stepVid_qNew {t : VidTable} {f : FsPath} {h : List Char}
    {sz : Nat} {ex : FsPath × Nat}
    (hfp : fpV f = some (h, sz)) (hex : dictGet t h = some ex)
    (hd : ¬ depth ex.1 < depth f) (hmv : moveOk f = true) :
    stepVid moveOk fpV t f = (t, [Event.moved f]) := by
  simp only [stepVid, hfp, hex, if_neg hd, hmv]
  rfl

/-- Known digest, candidate not deeper, failing move. -/
lemma stepVid_qNewFail {t : VidTable} {f : FsPath} {h : List Char}
    {sz : Nat} {ex : FsPath × Nat}
    (hfp : fpV f = some (h, sz)) (hex : dictGet t h = some ex)
    (hd : ¬ depth ex.1 < depth f) (hmv : moveOk f = false) :
    stepVid moveOk fpV t f = (t, [Event.moveFailed f]) := by
  simp only [stepVid, hfp, hex, if_neg hd, hmv]
  rfl

end StepLemmas

/-- C1: per-observation behaviour of the coordinator when all moves succeed.
If the fingerprint is already in the Survivor Table and the candidate is
strictly deeper, the stored shallower path is relocated and the entry is
replaced by the candidate; if the candidate's depth is less than or equal to
the stored depth, the candidate is relocated and the entry is unchanged; if
the fingerprint is absent, the candidate is inserted and nothing is
relocated.  Holds for both the image and the video pipeline. -/
theorem C1_observe_action_cases :
    (∀ (moveOk : FsPath → Bool) (fp : FsPath → Option (List Bool))
        (t : ImgTable) (f ex : FsPath) (h : List Bool),
        (∀ p, moveOk p = true) → fp f = some h →
        (dictGet t h = some ex → depth ex < depth f →
          stepImg moveOk fp t f = (dictSet t h f, [Event.moved ex]) ∧
          dictGet (stepImg moveOk fp t f).1 h = some f) ∧
        (dictGet t h = some ex → depth f ≤ depth ex →
          stepImg moveOk fp t f = (t, [Event.moved f])) ∧
        (dictGet t h = none →
          stepImg moveOk fp t f = (dictSet t h f, []) ∧
          dictGet (stepImg moveOk fp t f).1 h = some f))
    ∧ (∀ (moveOk : FsPath → Bool) (fp : FsPath → Option (List Char × Nat))
        (t : VidTable) (f : FsPath) (h : List Char) (sz : Nat)
        (ex : FsPath × Nat),
        (∀ p, moveOk p = true) → fp f = some (h, sz) →
        (dictGet t h = some ex → depth ex.1 < depth f →
          stepVid moveOk fp t f =
            (dictSet t h (f, sz), [Event.moved ex.1]) ∧
          dictGet (stepVid moveOk fp t f).1 h = some (f, sz)) ∧
        (dictGet t h = some ex → depth f ≤ depth ex.1 →
          stepVid moveOk fp t f = (t, [Event.moved f])) ∧
        (dictGet t h = none →
          stepVid moveOk fp t f = (dictSet t h (f, sz), []) ∧
          dictGet (stepVid moveOk fp t f).1 h = some (f, sz))) := by
  constructor
  · intro moveOk fp t f ex h hmo hfp
    refine ⟨?_, ?_, ?_⟩
    · intro hex hd
      have hs := stepImg_replace hfp hex hd (hmo ex)
      refine ⟨hs, ?_⟩
      rw [hs]
      exact dictGet_dictSet_self t h f
    · intro hex hd
      exact stepImg_qNew hfp hex (not_lt.mpr hd) (hmo f)
    · intro hnew
      have hs := @stepImg_record moveOk fp t f h hfp hnew
      refine ⟨hs, ?_⟩
      rw [hs]
      exact dictGet_dictSet_self t h f
  · intro moveOk fp t f h sz ex hmo hfp
    refine ⟨?_, ?_, ?_⟩
    · intro hex hd
      have hs := stepVid_replace hfp hex hd (hmo ex.1)
      refine ⟨hs, ?_⟩
      rw [hs]
      exact dictGet_dictSet_self t h (f, sz)
    · intro hex hd
      exact stepVid_qNew hfp hex (not_lt.mpr hd) (hmo f)
    · intro hnew
      have hs := @stepVid_record moveOk fp t f h sz hfp hnew
      refine ⟨hs, ?_⟩
      rw [hs]
      exact dictGet_dictSet_self t h (f, sz)

/-- Witness for C1: each of the three cases evaluated at concrete inputs, in
both pipelines.  Fingerprint `[]`, existing file `"a"` at depth 0, deeper
candidate `"d/b"` at depth 1, shallower candidate `"c"` at depth 0. -/
theorem C1_observe_action_cases_witness :
    (stepImg (fun _ => true) (fun _ => some []) [([], ['a'])] ['d', '/', 'b']
        = (dictSet [([], ['a'])] [] ['d', '/', 'b'], [Event.moved ['a']])) ∧
    (stepImg (fun _ => true) (fun _ => some []) [([], ['a'])] ['c']
        = ([([], ['a'])], [Event.moved ['c']])) ∧
    (stepImg (fun _ => true) (fun _ => some []) [] ['a']
        = (dictSet [] [] ['a'], [])) ∧
    (stepVid (fun _ => true) (fun _ => some (['h'], 5))
        [(['h'], (['a'], 5))] ['d', '/', 'b']
        = (dictSet [(['h'], (['a'], 5))] ['h'] (['d', '/', 'b'], 5),
            [Event.moved ['a']])) ∧
    (stepVid (fun _ => true) (fun _ => some (['h'], 5))
        [(['h'], (['a'], 5))] ['c'] = ([(['h'], (['a'], 5))],
          [Event.moved ['c']])) ∧
    (stepVid (fun _ => true) (fun _ => some (['h'], 5)) [] ['a']
        = (dictSet [] ['h'] (['a'], 5), [])) :=
  ⟨((C1_observe_action_cases.1 (fun _ => true) (fun _ => some [])
      [([], ['a'])] ['d', '/', 'b'] ['a'] [] (fun _ => rfl) rfl).1 rfl
      (by decide)).1,
   (C1_observe_action_cases.1 (fun _ => true) (fun _ => some [])
      [([], ['a'])] ['c'] ['a'] [] (fun _ => rfl) rfl).2.1 rfl (by decide),
   ((C1_observe_action_cases.1 (fun _ => true) (fun _ => some [])
      [] ['a'] ['a'] [] (fun _ => rfl) rfl).2.2 rfl).1,
   ((C1_observe_action_cases.2 (fun _ => true) (fun _ => some (['h'], 5))
      [(['h'], (['a'], 5))] ['d', '/', 'b'] ['h'] 5 (['a'], 5)
      (fun _ => rfl) rfl).1 rfl (by decide)).1,
   (C1_observe_action_cases.2 (fun _ => true) (fun _ => some (['h'], 5))
      [(['h'], (['a'], 5))] ['c'] ['h'] 5 (['a'], 5)
      (fun _ => rfl) rfl).2.1 rfl (by decide),
   ((C1_observe_action_cases.2 (fun _ => true) (fun _ => some (['h'], 5))
      [] ['a'] ['h'] 5 (['a'], 5) (fun _ => rfl) rfl).2.2 rfl).1⟩

/-- Counterexample to C4: a concrete `ReplaceAndQuarantineOld` observation
whose relocation fails.  The loop body moves the old file BEFORE assigning
the table entry, so the raised move error skips the update: afterwards the
table still maps the fingerprint to the old path `"a"` (which stayed in
place), not to the deeper candidate `"d/b"` as the claim's optimistic-update
description would require. -/
theorem C4_counterexample_no_optimistic_update :
    stepImgRaises (fun _ => false) (fun _ => some []) [([], ['a'])]
      ['d', '/', 'b'] = true ∧
    stepImg (fun _ => false) (fun _ => some []) [([], ['a'])] ['d', '/', 'b']
      = ([([], ['a'])], [Event.moveFailed ['a']]) ∧
    dictGet (stepImg (fun _ => false) (fun _ => some []) [([], ['a'])]
      ['d', '/', 'b']).1 [] = some ['a'] ∧
    (['a'] : FsPath) ≠ ['d', '/', 'b'] := by
  refine ⟨rfl, rfl, rfl, by decide⟩

/-- C4 (amended): in the `ReplaceAndQuarantineOld` case the relocation of the
old shallower path is attempted BEFORE the Survivor Table update.  When the
move fails, the raised error skips the assignment, so the table entry is NOT
updated: it still references the old path, which was not moved; there is no
optimistic update and hence nothing to roll back.  Holds for both
pipelines. -/
theorem C4_amended_move_precedes_update :
    (∀ (moveOk : FsPath → Bool) (fp : FsPath → Option (List Bool))
        (t : ImgTable) (f ex : FsPath) (h : List Bool),
        fp f = some h → dictGet t h = some ex → depth ex < depth f →
        moveOk ex = false →
        stepImg moveOk fp t f = (t, [Event.moveFailed ex]) ∧
        dictGet (stepImg moveOk fp t f).1 h = some ex)
    ∧ (∀ (moveOk : FsPath → Bool) (fp : FsPath → Option (List Char × Nat))
        (t : VidTable) (f : FsPath) (h : List Char) (sz : Nat)
        (ex : FsPath × Nat),
        fp f = some (h, sz) → dictGet t h = some ex → depth ex.1 < depth f →
        moveOk ex.1 = false →
        stepVid moveOk fp t f = (t, [Event.moveFailed ex.1]) ∧
        dictGet (stepVid moveOk fp t f).1 h = some ex) := by
  constructor
  · intro moveOk fp t f ex h hfp hex hd hmv
    have hs := stepImg_replaceFail hfp hex hd hmv
    refine ⟨hs, ?_⟩
    rw [hs]
    exact hex
  · intro moveOk fp t f h sz ex hfp hex hd hmv
    have hs := stepVid_replaceFail hfp hex hd hmv
    refine ⟨hs, ?_⟩
    rw [hs]
    exact hex

/-- Witness for the amended C4 at concrete inputs in both pipelines. -/
theorem C4_amended_move_precedes_update_witness :
    (stepImg (fun _ => false) (fun _ => some []) [([], ['a'])]
        ['d', '/', 'b'] = ([([], ['a'])], [Event.moveFailed ['a']]) ∧
      dictGet (stepImg (fun _ => false) (fun _ => some []) [([], ['a'])]
        ['d', '/', 'b']).1 [] = some ['a']) ∧
    (stepVid (fun _ => false) (fun _ => some (['h'], 5))
        [(['h'], (['a'], 5))] ['d', '/', 'b']
        = ([(['h'], (['a'], 5))], [Event.moveFailed ['a']]) ∧
      dictGet (stepVid (fun _ => false) (fun _ => some (['h'], 5))
        [(['h'], (['a'], 5))] ['d', '/', 'b']).1 ['h'] = some (['a'], 5)) :=
  ⟨C4_amended_move_precedes_update.1 (fun _ => false) (fun _ => some [])
      [([], ['a'])] ['d', '/', 'b'] ['a'] [] rfl rfl (by decide) rfl,
   C4_amended_move_precedes_update.2 (fun _ => false)
      (fun _ => some (['h'], 5)) [(['h'], (['a'], 5))] ['d', '/', 'b']
      ['h'] 5 (['a'], 5) rfl rfl (by decide) rfl⟩

section RunLemmas

variable {moveOk : FsPath → Bool} {fpI : FsPath → Option (List Bool)}
variable {fpV : FsPath → Option (List Char × Nat)}

/-- Decomposition of the image scan loop over a concatenated stream. -/
lemma runImg_append (t : ImgTable) (xs ys : List FsPath) :
    runImg moveOk fpI t (xs ++ ys) =
      ((runImg moveOk fpI (runImg moveOk fpI t xs).1 ys).1,
       (runImg moveOk fpI t xs).2 ++
         (runImg moveOk fpI (runImg moveOk fpI t xs).1 ys).2) := by
  induction xs generalizing t with
  | nil => simp [runImg]
  | cons f fs ih =>
    simp only [List.cons_append, runImg, List.append_eq]
    rw [ih]
    simp [List.append_assoc]

/-- Decomposition of the video scan loop over a concatenated stream. -/
lemma runVid_append (t : VidTable) (xs ys : List FsPath) :
    runVid moveOk fpV t (xs ++ ys) =
      ((runVid moveOk fpV (runVid moveOk fpV t xs).1 ys).1,
       (runVid moveOk fpV t xs).2 ++
         (runVid moveOk fpV (runVid moveOk fpV t xs).1 ys).2) := by
  induction xs generalizing t with
  | nil => simp [runVid]
  | cons f fs ih =>
    simp only [List.cons_append, runVid, List.append_eq]
    rw [ih]
    simp [List.append_assoc]

/-- A raising image iteration leaves the table unchanged and logs exactly one
error event (a decode error for the file or a failed move). -/
lemma stepImgRaises_spec {t : ImgTable} {f : FsPath}
    (h : stepImgRaises moveOk fpI t f = true) :
    (stepImg moveOk fpI t f).1 = t ∧
    ((stepImg moveOk fpI t f).2 = [Event.fpError f] ∨
      ∃ src, (stepImg moveOk fpI t f).2 = [Event.moveFailed src]) := by
  rcases hfp : fpI f with _ | h0
  · rw [stepImg_fpError hfp]
    exact ⟨rfl, Or.inl rfl⟩
  · rcases hex : dictGet t h0 with _ | ex
    · simp only [stepImgRaises, hfp, hex] at h
      exact Bool.noConfusion h
    · by_cases hd : depth ex < depth f
      · have hmv : moveOk ex = false := by
          simp only [stepImgRaises, hfp, hex, if_pos hd,
            Bool.not_eq_eq_eq_not, Bool.not_true] at h
          exact h
        rw [stepImg_replaceFail hfp hex hd hmv]
        exact ⟨rfl, Or.inr ⟨ex, rfl⟩⟩
      · have hmv : moveOk f = false := by
          simp only [stepImgRaises, hfp, hex, if_neg hd,
            Bool.not_eq_eq_eq_not, Bool.not_true] at h
          exact h
        rw [stepImg_qNewFail hfp hex hd hmv]
        exact ⟨rfl, Or.inr ⟨f, rfl⟩⟩

/-- A raising video iteration leaves the table unchanged and logs exactly one
error event. -/
lemma stepVidRaises_spec {t : VidTable} {f : FsPath}
    (h : stepVidRaises moveOk fpV t f = true) :
    (stepVid moveOk fpV t f).1 = t ∧
    ((stepVid moveOk fpV t f).2 = [Event.fpError f] ∨
      ∃ src, (stepVid moveOk fpV t f).2 = [Event.moveFailed src]) := by
  rcases hfp : fpV f with _ | hs
  · rw [stepVid_fpError hfp]
    exact ⟨rfl, Or.inl rfl⟩
  · obtain ⟨h0, sz⟩ := hs
    rcases hex : dictGet t h0 with _ | ex
    · simp only [stepVidRaises, hfp, hex] at h
      exact Bool.noConfusion h
    · by_cases hd : depth ex.1 < depth f
      · have hmv : moveOk ex.1 = false := by
          simp only [stepVidRaises, hfp, hex, if_pos hd,
            Bool.not_eq_eq_eq_not, Bool.not_true] at h
          exact h
        rw [stepVid_replaceFail hfp hex hd hmv]
        exact ⟨rfl, Or.inr ⟨ex.1, rfl⟩⟩
      · have hmv : moveOk f = false := by
          simp only [stepVidRaises, hfp, hex, if_neg hd,
            Bool.not_eq_eq_eq_not, Bool.not_true] at h
          exact h
        rw [stepVid_qNewFail hfp hex hd hmv]
        exact ⟨rfl, Or.inr ⟨f, rfl⟩⟩

end RunLemmas

/-- Unfolding of the image scan loop on a cons. -/
lemma runImg_cons (moveOk : FsPath → Bool) (fp : FsPath → Option (List Bool))
    (t : ImgTable) (f : FsPath) (fs : List FsPath) :
    runImg moveOk fp t (f :: fs) =
      ((runImg moveOk fp (stepImg moveOk fp t f).1 fs).1,
       (stepImg moveOk fp t f).2 ++
         (runImg moveOk fp (stepImg moveOk fp t f).1 fs).2) :=
  rfl

/-- Unfolding of the video scan loop on a cons. -/
lemma runVid_cons (moveOk : FsPath → Bool)
    (fp : FsPath → Option (List Char × Nat))
    (t : VidTable) (f : FsPath) (fs : List FsPath) :
    runVid moveOk fp t (f :: fs) =
      ((runVid moveOk fp (stepVid moveOk fp t f).1 fs).1,
       (stepVid moveOk fp t f).2 ++
         (runVid moveOk fp (stepVid moveOk fp t f).1 fs).2) :=
  rfl

/-- C7: a per-file error (fingerprinting or relocation raising on one
candidate `f`) is caught at the per-file boundary: the run continues, the
final Survivor Table equals the table of the run with `f` removed from the
stream, and the event streams agree except for the single logged error event
of `f`'s iteration — every other file is processed identically.  Holds for
both pipelines. -/
theorem C7_per_file_error_isolation :
    (∀ (moveOk : FsPath → Bool) (fp : FsPath → Option (List Bool))
        (t0 : ImgTable) (xs : List FsPath) (f : FsPath) (ys : List FsPath),
        stepImgRaises moveOk fp (runImg moveOk fp t0 xs).1 f = true →
        (runImg moveOk fp t0 (xs ++ f :: ys)).1 =
          (runImg moveOk fp t0 (xs ++ ys)).1 ∧
        ∃ E : Event,
          (E = Event.fpError f ∨ ∃ src, E = Event.moveFailed src) ∧
          (runImg moveOk fp t0 (xs ++ f :: ys)).2 =
            (runImg moveOk fp t0 xs).2 ++ E ::
              (runImg moveOk fp (runImg moveOk fp t0 xs).1 ys).2 ∧
          (runImg moveOk fp t0 (xs ++ ys)).2 =
            (runImg moveOk fp t0 xs).2 ++
              (runImg moveOk fp (runImg moveOk fp t0 xs).1 ys).2)
    ∧ (∀ (moveOk : FsPath → Bool) (fp : FsPath → Option (List Char × Nat))
        (t0 : VidTable) (xs : List FsPath) (f : FsPath) (ys : List FsPath),
        stepVidRaises moveOk fp (runVid moveOk fp t0 xs).1 f = true →
        (runVid moveOk fp t0 (xs ++ f :: ys)).1 =
          (runVid moveOk fp t0 (xs ++ ys)).1 ∧
        ∃ E : Event,
          (E = Event.fpError f ∨ ∃ src, E = Event.moveFailed src) ∧
          (runVid moveOk fp t0 (xs ++ f :: ys)).2 =
            (runVid moveOk fp t0 xs).2 ++ E ::
              (runVid moveOk fp (runVid moveOk fp t0 xs).1 ys).2 ∧
          (runVid moveOk fp t0 (xs ++ ys)).2 =
            (runVid moveOk fp t0 xs).2 ++
              (runVid moveOk fp (runVid moveOk fp t0 xs).1 ys).2) := by
  constructor
  · intro moveOk fp t0 xs f ys hr
    obtain ⟨h1, h2⟩ := stepImgRaises_spec hr
    have hxsA := @runImg_append moveOk fp t0 xs (f :: ys)
    have hxsB := @runImg_append moveOk fp t0 xs ys
    have hcons := runImg_cons moveOk fp (runImg moveOk fp t0 xs).1 f ys
    rw [h1] at hcons
    rcases h2 with h2 | ⟨src, h2⟩
    · rw [h2] at hcons
      refine ⟨?_, Event.fpError f, Or.inl rfl, ?_, ?_⟩
      · rw [hxsA, hxsB, hcons]
      · rw [hxsA, hcons]
        simp
      · rw [hxsB]
    · rw [h2] at hcons
      refine ⟨?_, Event.moveFailed src, Or.inr ⟨src, rfl⟩, ?_, ?_⟩
      · rw [hxsA, hxsB, hcons]
      · rw [hxsA, hcons]
        simp
      · rw [hxsB]
  · intro moveOk fp t0 xs f ys hr
    obtain ⟨h1, h2⟩ := stepVidRaises_spec hr
    have hxsA := @runVid_append moveOk fp t0 xs (f :: ys)
    have hxsB := @runVid_append moveOk fp t0 xs ys
    have hcons := runVid_cons moveOk fp (runVid moveOk fp t0 xs).1 f ys
    rw [h1] at hcons
    rcases h2 with h2 | ⟨src, h2⟩
    · rw [h2] at hcons
      refine ⟨?_, Event.fpError f, Or.inl rfl, ?_, ?_⟩
      · rw [hxsA, hxsB, hcons]
      · rw [hxsA, hcons]
        simp
      · rw [hxsB]
    · rw [h2] at hcons
      refine ⟨?_, Event.moveFailed src, Or.inr ⟨src, rfl⟩, ?_, ?_⟩
      · rw [hxsA, hxsB, hcons]
      · rw [hxsA, hcons]
        simp
      · rw [hxsB]

/-- Witness for C7: a concrete one-file stream whose only file fails to
decode. -/
theorem C7_per_file_error_isolation_witness :
    (stepImgRaises (fun _ => true) (fun _ => (none : Option (List Bool)))
        (runImg (fun _ => true) (fun _ => none) ([] : ImgTable) []).1 ['x']
        = true) ∧
    ((runImg (fun _ => true) (fun _ => (none : Option (List Bool)))
        ([] : ImgTable) ([] ++ ['x'] :: [])).1 =
        (runImg (fun _ => true) (fun _ => none) ([] : ImgTable)
          ([] ++ [])).1 ∧
      ∃ E : Event,
        (E = Event.fpError ['x'] ∨ ∃ src, E = Event.moveFailed src) ∧
        (runImg (fun _ => true) (fun _ => none) ([] : ImgTable)
            ([] ++ ['x'] :: [])).2 =
          (runImg (fun _ => true) (fun _ => none) ([] : ImgTable) []).2 ++
            E :: (runImg (fun _ => true) (fun _ => none)
              (runImg (fun _ => true) (fun _ => none) ([] : ImgTable)
                []).1 []).2 ∧
        (runImg (fun _ => true) (fun _ => none) ([] : ImgTable)
            ([] ++ [])).2 =
          (runImg (fun _ => true) (fun _ => none) ([] : ImgTable) []).2 ++
            (runImg (fun _ => true) (fun _ => none)
              (runImg (fun _ => true) (fun _ => none) ([] : ImgTable)
                []).1 []).2) :=
  ⟨rfl, C7_per_file_error_isolation.1 (fun _ => true) (fun _ => none)
    ([] : ImgTable) [] ['x'] [] rfl⟩

/-- Every iteration either leaves the image table unchanged or assigns the
current file under its own fingerprint. -/
lemma stepImg_table_cases (moveOk : FsPath → Bool)
    (fp : FsPath → Option (List Bool)) (t : ImgTable) (f : FsPath) :
    (stepImg moveOk fp t f).1 = t ∨
    ∃ h, fp f = some h ∧ (stepImg moveOk fp t f).1 = dictSet t h f := by
  rcases hfp : fp f with _ | h
  · rw [stepImg_fpError hfp]
    exact Or.inl rfl
  · rcases hex : dictGet t h with _ | ex
    · rw [stepImg_record hfp hex]
      exact Or.inr ⟨h, rfl, rfl⟩
    · by_cases hd : depth ex < depth f
      · cases hmv : moveOk ex
        · rw [stepImg_replaceFail hfp hex hd hmv]
          exact Or.inl rfl
        · rw [stepImg_replace hfp hex hd hmv]
          exact Or.inr ⟨h, rfl, rfl⟩
      · cases hmv : moveOk f
        · rw [stepImg_qNewFail hfp hex hd hmv]
          exact Or.inl rfl
        · rw [stepImg_qNew hfp hex hd hmv]
          exact Or.inl rfl

/-- Any path that an iteration attempts to move (successfully or not) is
either the current candidate itself or the table entry stored under the
current candidate's fingerprint. -/
lemma stepImg_moveSrc {moveOk : FsPath → Bool}
    {fp : FsPath → Option (List Bool)} {t : ImgTable} {f src : FsPath}
    (hm : Event.moved src ∈ (stepImg moveOk fp t f).2 ∨
      Event.moveFailed src ∈ (stepImg moveOk fp t f).2) :
    src = f ∨ ∃ h, fp f = some h ∧ dictGet t h = some src := by
  rcases hfp : fp f with _ | h
  · rw [stepImg_fpError hfp] at hm
    simp at hm
  · rcases hex : dictGet t h with _ | ex
    · rw [stepImg_record hfp hex] at hm
      simp at hm
    · by_cases hd : depth ex < depth f
      · cases hmv : moveOk ex
        · rw [stepImg_replaceFail hfp hex hd hmv] at hm
          rcases hm with hm | hm
          · exact absurd hm (by simp)
          · have hse : src = ex := by simpa using hm
            exact Or.inr ⟨h, rfl, hse ▸ hex⟩
        · rw [stepImg_replace hfp hex hd hmv] at hm
          rcases hm with hm | hm
          · have hse : src = ex := by simpa using hm
            exact Or.inr ⟨h, rfl, hse ▸ hex⟩
          · exact absurd hm (by simp)
      · cases hmv : moveOk f
        · rw [stepImg_qNewFail hfp hex hd hmv] at hm
          rcases hm with hm | hm
          · exact absurd hm (by simp)
          · exact Or.inl (by simpa using hm)
        · rw [stepImg_qNew hfp hex hd hmv] at hm
          rcases hm with hm | hm
          · exact Or.inl (by simpa using hm)
          · exact absurd hm (by simp)

/-- Property: every table entry's stored path fingerprints to its own key. -/
def imgEntriesHashed (fp : FsPath → Option (List Bool)) (t : ImgTable) :
    Prop :=
  ∀ e ∈ t, fp e.2 = some e.1

/-- One iteration preserves `imgEntriesHashed`. -/
lemma stepImg_entriesHashed {moveOk : FsPath → Bool}
    {fp : FsPath → Option (List Bool)} {t : ImgTable} {f : FsPath}
    (hT : imgEntriesHashed fp t) :
    imgEntriesHashed fp (stepImg moveOk fp t f).1 := by
  rcases stepImg_table_cases moveOk fp t f with hc | ⟨h, hfp, hc⟩
  · rw [hc]
    exact hT
  · rw [hc]
    intro e he
    rcases mem_dictSet he with he1 | he1
    · rw [he1]
      exact hfp
    · exact hT e he1

/-- The whole scan preserves `imgEntriesHashed`. -/
lemma runImg_entriesHashed {moveOk : FsPath → Bool}
    {fp : FsPath → Option (List Bool)} {fs : List FsPath} {t : ImgTable}
    (hT : imgEntriesHashed fp t) :
    imgEntriesHashed fp (runImg moveOk fp t fs).1 := by
  induction fs generalizing t with
  | nil => exact hT
  | cons g rest ih =>
    rw [runImg_cons]
    exact ih (stepImg_entriesHashed hT)

/-- If no scanned file carries fingerprint `h` and `h` is absent from the
table, it stays absent. -/
lemma runImg_key_absent {moveOk : FsPath → Bool}
    {fp : FsPath → Option (List Bool)} {h : List Bool} {fs : List FsPath}
    {t : ImgTable} (hfs : ∀ g ∈ fs, fp g ≠ some h)
    (habs : dictGet t h = none) :
    dictGet (runImg moveOk fp t fs).1 h = none := by
  induction fs generalizing t with
  | nil => exact habs
  | cons g rest ih =>
    rw [runImg_cons]
    refine ih (fun x hx => hfs x (List.mem_cons_of_mem g hx)) ?_
    rcases stepImg_table_cases moveOk fp t g with hc | ⟨h', hfp, hc⟩
    · rw [hc]
      exact habs
    · rw [hc]
      have hne : h ≠ h' := by
        intro he
        exact hfs g (List.mem_cons_self g rest) (he ▸ hfp)
      rw [dictGet_dictSet_ne t h' h g hne]
      exact habs

/-- During a scan of files none of which is `f` itself, and in which only `f`
could carry `f`'s fingerprint, `f` is never the source of a move attempt. -/
lemma runImg_no_move_of_unique {moveOk : FsPath → Bool}
    {fp : FsPath → Option (List Bool)} {h : List Bool} {f : FsPath}
    (hfp : fp f = some h) :
    ∀ (fs : List FsPath) (t : ImgTable), imgEntriesHashed fp t →
      (∀ g ∈ fs, fp g = some h → g = f) → f ∉ fs →
      Event.moved f ∉ (runImg moveOk fp t fs).2 ∧
      Event.moveFailed f ∉ (runImg moveOk fp t fs).2 := by
  intro fs
  induction fs with
  | nil =>
    intro t _ _ _
    exact ⟨List.not_mem_nil _, List.not_mem_nil _⟩
  | cons g rest ih =>
    intro t hT hfs hnf
    have hgf : g ≠ f := by
      intro he
      exact hnf (he ▸ List.mem_cons_self g rest)
    have hstep : Event.moved f ∉ (stepImg moveOk fp t g).2 ∧
        Event.moveFailed f ∉ (stepImg moveOk fp t g).2 := by
      constructor
      · intro hmem
        rcases stepImg_moveSrc (Or.inl hmem) with hc | ⟨h', hfp', hget⟩
        · exact hgf hc.symm
        · have hfh : fp f = some h' := hT _ (dictGet_mem hget)
          have hh : h' = h := by
            rw [hfp] at hfh
            injection hfh with hv
            exact hv.symm
          exact hgf (hfs g (List.mem_cons_self g rest) (hh ▸ hfp'))
      · intro hmem
        rcases stepImg_moveSrc (Or.inr hmem) with hc | ⟨h', hfp', hget⟩
        · exact hgf hc.symm
        · have hfh : fp f = some h' := hT _ (dictGet_mem hget)
          have hh : h' = h := by
            rw [hfp] at hfh
            injection hfh with hv
            exact hv.symm
          exact hgf (hfs g (List.mem_cons_self g rest) (hh ▸ hfp'))
    have hrest := ih (stepImg moveOk fp t g).1 (stepImg_entriesHashed hT)
      (fun x hx hfx => hfs x (List.mem_cons_of_mem g hx) hfx)
      (fun hx => hnf (List.mem_cons_of_mem g hx))
    rw [runImg_cons]
    constructor
    · intro hmem
      rcases List.mem_append.mp hmem with hmem | hmem
      · exact hstep.1 hmem
      · exact hrest.1 hmem
    · intro hmem
      rcases List.mem_append.mp hmem with hmem | hmem
      · exact hstep.2 hmem
      · exact hrest.2 hmem

/-- C8: a file whose fingerprint is unique in the traversal stream is never
the source of any relocation attempt during the whole image run: it is only
recorded in the Survivor Table. -/
theorem C8_unique_fingerprint_never_relocated :
    ∀ (moveOk : FsPath → Bool) (fp : FsPath → Option (List Bool))
      (files : List FsPath) (f : FsPath) (h : List Bool),
      fp f = some h → files.Nodup → f ∈ files →
      (∀ g ∈ files, fp g = some h → g = f) →
      Event.moved f ∉ (runImg moveOk fp [] files).2 ∧
      Event.moveFailed f ∉ (runImg moveOk fp [] files).2 := by
  intro moveOk fp files f h hfp hnd hmem hfs
  obtain ⟨xs, ys, hsplit⟩ := List.append_of_mem hmem
  subst hsplit
  have hnx : f ∉ xs := by
    intro hx
    have hdisj := (List.nodup_append.mp hnd).2.2
    exact hdisj hx (List.mem_cons_self f ys)
  have hny : f ∉ ys :=
    (List.nodup_cons.mp (List.nodup_append.mp hnd).2.1).1
  have hfsx : ∀ g ∈ xs, fp g = some h → g = f :=
    fun g hg => hfs g (List.mem_append.mpr (Or.inl hg))
  have hfsy : ∀ g ∈ ys, fp g = some h → g = f :=
    fun g hg => hfs g (List.mem_append.mpr (Or.inr (List.mem_cons_of_mem f hg)))
  have hT0 : imgEntriesHashed fp ([] : ImgTable) := fun e he => absurd he (List.not_mem_nil e)
  have hpre := @runImg_no_move_of_unique moveOk fp h f hfp xs [] hT0 hfsx hnx
  have hTx : imgEntriesHashed fp (runImg moveOk fp [] xs).1 :=
    runImg_entriesHashed hT0
  have habs : dictGet (runImg moveOk fp [] xs).1 h = none := by
    refine runImg_key_absent ?_ rfl
    intro g hg hfg
    exact hnx ((hfsx g hg hfg) ▸ hg)
  have hstep : stepImg moveOk fp (runImg moveOk fp [] xs).1 f =
      (dictSet (runImg moveOk fp [] xs).1 h f, []) :=
    stepImg_record hfp habs
  have hTy : imgEntriesHashed fp
      (stepImg moveOk fp (runImg moveOk fp [] xs).1 f).1 :=
    stepImg_entriesHashed hTx
  have hpost := @runImg_no_move_of_unique moveOk fp h f hfp ys
    (stepImg moveOk fp (runImg moveOk fp [] xs).1 f).1 hTy hfsy hny
  rw [runImg_append, runImg_cons]
  constructor
  · intro hmem2
    rcases List.mem_append.mp hmem2 with h1 | h1
    · exact hpre.1 h1
    · rcases List.mem_append.mp h1 with h2 | h2
      · rw [hstep] at h2
        exact absurd h2 (List.not_mem_nil _)
      · exact hpost.1 h2
  · intro hmem2
    rcases List.mem_append.mp hmem2 with h1 | h1
    · exact hpre.2 h1
    · rcases List.mem_append.mp h1 with h2 | h2
      · rw [hstep] at h2
        exact absurd h2 (List.not_mem_nil _)
      · exact hpost.2 h2

/-- Witness for C8: a two-file stream with distinct fingerprints; the unique
file `"a"` is never a move source. -/
theorem C8_unique_fingerprint_never_relocated_witness :
    ((fun p : FsPath => some [decide (p = ['a'])]) ['a'] = some [true]) ∧
    ([['a'], ['b']] : List FsPath).Nodup ∧ (['a'] : FsPath) ∈
      ([['a'], ['b']] : List FsPath) ∧
    (∀ g ∈ ([['a'], ['b']] : List FsPath),
      (fun p : FsPath => some [decide (p = ['a'])]) g = some [true] →
        g = ['a']) ∧
    (Event.moved ['a'] ∉ (runImg (fun _ => true)
        (fun p : FsPath => some [decide (p = ['a'])]) [] [['a'], ['b']]).2 ∧
      Event.moveFailed ['a'] ∉ (runImg (fun _ => true)
        (fun p : FsPath => some [decide (p = ['a'])]) [] [['a'], ['b']]).2) :=
  ⟨by decide, by decide, by decide, by decide,
    C8_unique_fingerprint_never_relocated (fun _ => true)
      (fun p : FsPath => some [decide (p = ['a'])]) [['a'], ['b']] ['a']
      [true] (by decide) (by decide) (by decide) (by decide)⟩

/-- Property: every image-table entry's path fingerprints to its key and was
observed in the scanned prefix `seen`. -/
def imgEntriesFrom (fp : FsPath → Option (List Bool)) (seen : List FsPath)
    (t : ImgTable) : Prop :=
  ∀ e ∈ t, fp e.2 = some e.1 ∧ e.2 ∈ seen

/-- Property: every image-table entry's path is at least as deep as every
observed path carrying the same fingerprint. -/
def imgDeepest (fp : FsPath → Option (List Bool)) (seen : List FsPath)
    (t : ImgTable) : Prop :=
  ∀ e ∈ t, ∀ g ∈ seen, fp g = some e.1 → depth g ≤ depth e.2

/-- Property: every fingerprint observed in the prefix has an entry. -/
def imgComplete (fp : FsPath → Option (List Bool)) (seen : List FsPath)
    (t : ImgTable) : Prop :=
  ∀ g ∈ seen, ∀ h, fp g = some h → ∃ v, dictGet t h = some v

/-- The Survivor Table invariant for the image pipeline: pairwise-distinct
fingerprints, entries observed in the prefix and hashing to their keys,
entries deepest among same-fingerprint observations, and one entry per
observed fingerprint. -/
def imgInvariant (fp : FsPath → Option (List Bool)) (seen : List FsPath)
    (t : ImgTable) : Prop :=
  (t.map Prod.fst).Nodup ∧ imgEntriesFrom fp seen t ∧
    imgDeepest fp seen t ∧ imgComplete fp seen t

/-- Variant of `mem_dictSet` under distinct keys: an element of the updated
list is the new binding or an old element with a different key. -/
lemma mem_dictSet_nodup {κ ν : Type} [DecidableEq κ] {t : List (κ × ν)}
    {k : κ} {v : ν} {e : κ × ν} (hnd : (t.map Prod.fst).Nodup)
    (h : e ∈ dictSet t k v) : e = (k, v) ∨ (e ∈ t ∧ e.1 ≠ k) := by
  induction t with
  | nil =>
    rw [dictSet] at h
    exact Or.inl (List.mem_singleton.mp h)
  | cons f rest ih =>
    obtain ⟨a, b⟩ := f
    rw [List.map_cons, List.nodup_cons] at hnd
    by_cases ha : a = k
    · rw [dictSet_cons, if_pos ha] at h
      rcases List.mem_cons.mp h with h1 | h1
      · exact Or.inl h1
      · have : e.1 ≠ k := by
          intro hk
          apply hnd.1
          rw [ha]
          exact hk ▸ List.mem_map.mpr ⟨e, h1, rfl⟩
        exact Or.inr ⟨List.mem_cons_of_mem _ h1, this⟩
    · rw [dictSet_cons, if_neg ha] at h
      rcases List.mem_cons.mp h with h1 | h1
      · refine Or.inr ⟨h1 ▸ List.mem_cons_self _ _, ?_⟩
        rw [h1]
        exact ha
      · rcases ih hnd.2 h1 with h2 | h2
        · exact Or.inl h2
        · exact Or.inr ⟨List.mem_cons_of_mem _ h2.1, h2.2⟩

/-- One image iteration with successful moves preserves the Survivor Table
invariant, with the candidate appended to the observed prefix. -/
lemma stepImg_invariant {moveOk : FsPath → Bool}
    {fp : FsPath → Option (List Bool)} {seen : List FsPath} {t : ImgTable}
    {f : FsPath} (hmo : ∀ p, moveOk p = true)
    (hI : imgInvariant fp seen t) :
    imgInvariant fp (seen ++ [f]) (stepImg moveOk fp t f).1 := by
  obtain ⟨hnd, hFrom, hDeep, hComp⟩ := hI
  have hseen : ∀ g ∈ seen, g ∈ seen ++ [f] :=
    fun g hg => List.mem_append.mpr (Or.inl hg)
  rcases hfp : fp f with _ | h
  · rw [stepImg_fpError hfp]
    refine ⟨hnd, ?_, ?_, ?_⟩
    · intro e he
      exact ⟨(hFrom e he).1, hseen _ (hFrom e he).2⟩
    · intro e he g hg hfg
      rcases List.mem_append.mp hg with hg1 | hg1
      · exact hDeep e he g hg1 hfg
      · rw [List.mem_singleton.mp hg1, hfp] at hfg
        cases hfg
    · intro g hg h' hfg
      rcases List.mem_append.mp hg with hg1 | hg1
      · exact hComp g hg1 h' hfg
      · rw [List.mem_singleton.mp hg1, hfp] at hfg
        cases hfg
  · rcases hex : dictGet t h with _ | ex
    · rw [stepImg_record hfp hex]
      refine ⟨?_, ?_, ?_, ?_⟩
      · rw [keys_dictSet_of_none t h f hex, List.nodup_append]
        refine ⟨hnd, List.nodup_singleton h, ?_⟩
        intro a ha hb
        rw [List.mem_singleton.mp hb] at ha
        exact dictGet_eq_none_iff.mp hex ha
      · intro e he
        rcases mem_dictSet he with he1 | he1
        · rw [he1]
          exact ⟨hfp, List.mem_append.mpr (Or.inr (List.mem_singleton.mpr rfl))⟩
        · exact ⟨(hFrom e he1).1, hseen _ (hFrom e he1).2⟩
      · intro e he g hg hfg
        rcases mem_dictSet he with he1 | he1
        · rw [he1] at hfg ⊢
          rcases List.mem_append.mp hg with hg1 | hg1
          · obtain ⟨v, hv⟩ := hComp g hg1 h hfg
            rw [hv] at hex
            cases hex
          · rw [List.mem_singleton.mp hg1]
        · have hne : e.1 ≠ h := by
            intro hk
            apply dictGet_eq_none_iff.mp hex
            exact hk ▸ List.mem_map.mpr ⟨e, he1, rfl⟩
          rcases List.mem_append.mp hg with hg1 | hg1
          · exact hDeep e he1 g hg1 hfg
          · rw [List.mem_singleton.mp hg1, hfp] at hfg
            injection hfg with hv
            exact absurd hv.symm hne
      · intro g hg h' hfg
        rcases List.mem_append.mp hg with hg1 | hg1
        · obtain ⟨v, hv⟩ := hComp g hg1 h' hfg
          by_cases hh : h' = h
          · exact ⟨f, hh ▸ dictGet_dictSet_self t h f⟩
          · exact ⟨v, (dictGet_dictSet_ne t h h' f hh).trans hv⟩
        · rw [List.mem_singleton.mp hg1, hfp] at hfg
          injection hfg with hv
          exact ⟨f, hv ▸ dictGet_dictSet_self t h f⟩
    · have hmemex : (h, ex) ∈ t := dictGet_mem hex
      by_cases hd : depth ex < depth f
      · rw [stepImg_replace hfp hex hd (hmo ex)]
        refine ⟨?_, ?_, ?_, ?_⟩
        · rw [keys_dictSet_of_some t h f ex hex]
          exact hnd
        · intro e he
          rcases mem_dictSet he with he1 | he1
          · rw [he1]
            exact ⟨hfp, List.mem_append.mpr (Or.inr (List.mem_singleton.mpr rfl))⟩
          · exact ⟨(hFrom e he1).1, hseen _ (hFrom e he1).2⟩
        · intro e he g hg hfg
          rcases mem_dictSet_nodup hnd he with he1 | ⟨he1, hne⟩
          · rw [he1] at hfg ⊢
            rcases List.mem_append.mp hg with hg1 | hg1
            · exact le_trans (hDeep (h, ex) hmemex g hg1 hfg) (le_of_lt hd)
            · rw [List.mem_singleton.mp hg1]
          · rcases List.mem_append.mp hg with hg1 | hg1
            · exact hDeep e he1 g hg1 hfg
            · rw [List.mem_singleton.mp hg1, hfp] at hfg
              injection hfg with hv
              exact absurd hv.symm hne
        · intro g hg h' hfg
          rcases List.mem_append.mp hg with hg1 | hg1
          · obtain ⟨v, hv⟩ := hComp g hg1 h' hfg
            by_cases hh : h' = h
            · exact ⟨f, hh ▸ dictGet_dictSet_self t h f⟩
            · exact ⟨v, (dictGet_dictSet_ne t h h' f hh).trans hv⟩
          · rw [List.mem_singleton.mp hg1, hfp] at hfg
            injection hfg with hv
            exact ⟨f, hv ▸ dictGet_dictSet_self t h f⟩
      · rw [stepImg_qNew hfp hex hd (hmo f)]
        refine ⟨hnd, ?_, ?_, ?_⟩
        · intro e he
          exact ⟨(hFrom e he).1, hseen _ (hFrom e he).2⟩
        · intro e he g hg hfg
          rcases List.mem_append.mp hg with hg1 | hg1
          · exact hDeep e he g hg1 hfg
          · rw [List.mem_singleton.mp hg1, hfp] at hfg
            injection hfg with hv
            have he2 : dictGet t e.1 = some e.2 := by
              apply dictGet_of_mem_nodup hnd
              obtain ⟨e1, e2⟩ := e
              exact he
            rw [hv] at hex
            rw [he2] at hex
            injection hex with hv2
            rw [List.mem_singleton.mp hg1]
            rw [hv2]
            exact not_lt.mp hd
        · intro g hg h' hfg
          rcases List.mem_append.mp hg with hg1 | hg1
          · exact hComp g hg1 h' hfg
          · rw [List.mem_singleton.mp hg1, hfp] at hfg
            injection hfg with hv
            exact ⟨ex, hv ▸ hex⟩

/-- The image scan with successful moves preserves the invariant across any
stream. -/
lemma runImg_invariant {moveOk : FsPath → Bool}
    {fp : FsPath → Option (List Bool)} (hmo : ∀ p, moveOk p = true) :
    ∀ (fs seen : List FsPath) (t : ImgTable), imgInvariant fp seen t →
      imgInvariant fp (seen ++ fs) (runImg moveOk fp t fs).1 := by
  intro fs
  induction fs with
  | nil =>
    intro seen t hI
    simpa using hI
  | cons g rest ih =>
    intro seen t hI
    rw [runImg_cons, List.append_cons]
    exact ih (seen ++ [g]) _ (stepImg_invariant hmo hI)

/-- Property: every video-table entry's stored path fingerprints to its key
and stored size, and was observed in the scanned prefix. -/
def vidEntriesFrom (fp : FsPath → Option (List Char × Nat))
    (seen : List FsPath) (t : VidTable) : Prop :=
  ∀ e ∈ t, fp e.2.1 = some (e.1, e.2.2) ∧ e.2.1 ∈ seen

/-- Property: every video-table entry's path is at least as deep as every
observed path with the same digest. -/
def vidDeepest (fp : FsPath → Option (List Char × Nat))
    (seen : List FsPath) (t : VidTable) : Prop :=
  ∀ e ∈ t, ∀ g ∈ seen, ∀ sz, fp g = some (e.1, sz) → depth g ≤ depth e.2.1

/-- Property: every digest observed in the prefix has an entry. -/
def vidComplete (fp : FsPath → Option (List Char × Nat))
    (seen : List FsPath) (t : VidTable) : Prop :=
  ∀ g ∈ seen, ∀ h sz, fp g = some (h, sz) → ∃ v, dictGet t h = some v

/-- The Survivor Table invariant for the video pipeline. -/
def vidInvariant (fp : FsPath → Option (List Char × Nat))
    (seen : List FsPath) (t : VidTable) : Prop :=
  (t.map Prod.fst).Nodup ∧ vidEntriesFrom fp seen t ∧
    vidDeepest fp seen t ∧ vidComplete fp seen t

/-- One video iteration with successful moves preserves the invariant. -/
lemma stepVid_invariant {moveOk : FsPath → Bool}
    {fp : FsPath → Option (List Char × Nat)} {seen : List FsPath}
    {t : VidTable} {f : FsPath} (hmo : ∀ p, moveOk p = true)
    (hI : vidInvariant fp seen t) :
    vidInvariant fp (seen ++ [f]) (stepVid moveOk fp t f).1 := by
  obtain ⟨hnd, hFrom, hDeep, hComp⟩ := hI
  have hseen : ∀ g ∈ seen, g ∈ seen ++ [f] :=
    fun g hg => List.mem_append.mpr (Or.inl hg)
  rcases hfp : fp f with _ | hs
  · rw [stepVid_fpError hfp]
    refine ⟨hnd, ?_, ?_, ?_⟩
    · intro e he
      exact ⟨(hFrom e he).1, hseen _ (hFrom e he).2⟩
    · intro e he g hg sz hfg
      rcases List.mem_append.mp hg with hg1 | hg1
      · exact hDeep e he g hg1 sz hfg
      · rw [List.mem_singleton.mp hg1, hfp] at hfg
        cases hfg
    · intro g hg h' sz hfg
      rcases List.mem_append.mp hg with hg1 | hg1
      · exact hComp g hg1 h' sz hfg
      · rw [List.mem_singleton.mp hg1, hfp] at hfg
        cases hfg
  · obtain ⟨h, sz⟩ := hs
    rcases hex : dictGet t h with _ | ex
    · rw [stepVid_record hfp hex]
      refine ⟨?_, ?_, ?_, ?_⟩
      · rw [keys_dictSet_of_none t h (f, sz) hex, List.nodup_append]
        refine ⟨hnd, List.nodup_singleton h, ?_⟩
        intro a ha hb
        rw [List.mem_singleton.mp hb] at ha
        exact dictGet_eq_none_iff.mp hex ha
      · intro e he
        rcases mem_dictSet he with he1 | he1
        · rw [he1]
          exact ⟨hfp, List.mem_append.mpr (Or.inr (List.mem_singleton.mpr rfl))⟩
        · exact ⟨(hFrom e he1).1, hseen _ (hFrom e he1).2⟩
      · intro e he g hg sz2 hfg
        rcases mem_dictSet he with he1 | he1
        · rw [he1] at hfg ⊢
          rcases List.mem_append.mp hg with hg1 | hg1
          · obtain ⟨v, hv⟩ := hComp g hg1 h sz2 hfg
            rw [hv] at hex
            cases hex
          · rw [List.mem_singleton.mp hg1]
        · have hne : e.1 ≠ h := by
            intro hk
            apply dictGet_eq_none_iff.mp hex
            exact hk ▸ List.mem_map.mpr ⟨e, he1, rfl⟩
          rcases List.mem_append.mp hg with hg1 | hg1
          · exact hDeep e he1 g hg1 sz2 hfg
          · rw [List.mem_singleton.mp hg1, hfp] at hfg
            injection hfg with hv
            exact absurd (congrArg Prod.fst hv).symm hne
      · intro g hg h' sz2 hfg
        rcases List.mem_append.mp hg with hg1 | hg1
        · obtain ⟨v, hv⟩ := hComp g hg1 h' sz2 hfg
          by_cases hh : h' = h
          · exact ⟨(f, sz), hh ▸ dictGet_dictSet_self t h (f, sz)⟩
          · exact ⟨v, (dictGet_dictSet_ne t h h' (f, sz) hh).trans hv⟩
        · rw [List.mem_singleton.mp hg1, hfp] at hfg
          injection hfg with hv
          have hh : h' = h := (congrArg Prod.fst hv).symm
          exact ⟨(f, sz), hh ▸ dictGet_dictSet_self t h (f, sz)⟩
    · have hmemex : (h, ex) ∈ t := dictGet_mem hex
      by_cases hd : depth ex.1 < depth f
      · rw [stepVid_replace hfp hex hd (hmo ex.1)]
        refine ⟨?_, ?_, ?_, ?_⟩
        · rw [keys_dictSet_of_some t h (f, sz) ex hex]
          exact hnd
        · intro e he
          rcases mem_dictSet he with he1 | he1
          · rw [he1]
            exact ⟨hfp, List.mem_append.mpr (Or.inr (List.mem_singleton.mpr rfl))⟩
          · exact ⟨(hFrom e he1).1, hseen _ (hFrom e he1).2⟩
        · intro e he g hg sz2 hfg
          rcases mem_dictSet_nodup hnd he with he1 | ⟨he1, hne⟩
          · rw [he1] at hfg ⊢
            rcases List.mem_append.mp hg with hg1 | hg1
            · exact le_trans (hDeep (h, ex) hmemex g hg1 sz2 hfg)
                (le_of_lt hd)
            · rw [List.mem_singleton.mp hg1]
          · rcases List.mem_append.mp hg with hg1 | hg1
            · exact hDeep e he1 g hg1 sz2 hfg
            · rw [List.mem_singleton.mp hg1, hfp] at hfg
              injection hfg with hv
              exact absurd (congrArg Prod.fst hv).symm hne
        · intro g hg h' sz2 hfg
          rcases List.mem_append.mp hg with hg1 | hg1
          · obtain ⟨v, hv⟩ := hComp g hg1 h' sz2 hfg
            by_cases hh : h' = h
            · exact ⟨(f, sz), hh ▸ dictGet_dictSet_self t h (f, sz)⟩
            · exact ⟨v, (dictGet_dictSet_ne t h h' (f, sz) hh).trans hv⟩
          · rw [List.mem_singleton.mp hg1, hfp] at hfg
            injection hfg with hv
            have hh : h' = h := (congrArg Prod.fst hv).symm
            exact ⟨(f, sz), hh ▸ dictGet_dictSet_self t h (f, sz)⟩
      · rw [stepVid_qNew hfp hex hd (hmo f)]
        refine ⟨hnd, ?_, ?_, ?_⟩
        · intro e he
          exact ⟨(hFrom e he).1, hseen _ (hFrom e he).2⟩
        · intro e he g hg sz2 hfg
          rcases List.mem_append.mp hg with hg1 | hg1
          · exact hDeep e he g hg1 sz2 hfg
          · rw [List.mem_singleton.mp hg1, hfp] at hfg
            injection hfg with hv
            have hv1 : h = e.1 := congrArg Prod.fst hv
            have he2 : dictGet t e.1 = some e.2 := by
              apply dictGet_of_mem_nodup hnd
              obtain ⟨e1, e2⟩ := e
              exact he
            rw [hv1] at hex
            rw [he2] at hex
            injection hex with hv2
            rw [List.mem_singleton.mp hg1]
            rw [hv2]
            exact not_lt.mp hd
        · intro g hg h' sz2 hfg
          rcases List.mem_append.mp hg with hg1 | hg1
          · exact hComp g hg1 h' sz2 hfg
          · rw [List.mem_singleton.mp hg1, hfp] at hfg
            injection hfg with hv
            have hh : h' = h := (congrArg Prod.fst hv).symm
            exact ⟨ex, hh ▸ hex⟩

/-- The video scan with successful moves preserves the invariant. -/
lemma runVid_invariant {moveOk : FsPath → Bool}
    {fp : FsPath → Option (List Char × Nat)} (hmo : ∀ p, moveOk p = true) :
    ∀ (fs seen : List FsPath) (t : VidTable), vidInvariant fp seen t →
      vidInvariant fp (seen ++ fs) (runVid moveOk fp t fs).1 := by
  intro fs
  induction fs with
  | nil =>
    intro seen t hI
    simpa using hI
  | cons g rest ih =>
    intro seen t hI
    rw [runVid_cons, List.append_cons]
    exact ih (seen ++ [g]) _ (stepVid_invariant hmo hI)

/-- C2: throughout a pipeline run with successful relocations (taking `files`
to range over every prefix of the traversal gives the state after every
observation), the Survivor Table has pairwise-distinct fingerprint keys (at
most one entry per fingerprint), and each entry's stored path was observed,
fingerprints to its key, and has maximal depth among all observations so far
sharing that fingerprint.  Holds for both pipelines. -/
theorem C2_survivor_table_invariant :
    (∀ (moveOk : FsPath → Bool) (fp : FsPath → Option (List Bool))
        (files : List FsPath), (∀ p, moveOk p = true) →
        ((runImg moveOk fp [] files).1.map Prod.fst).Nodup ∧
        ∀ h p, dictGet (runImg moveOk fp [] files).1 h = some p →
          fp p = some h ∧ p ∈ files ∧
          ∀ g ∈ files, fp g = some h → depth g ≤ depth p)
    ∧ (∀ (moveOk : FsPath → Bool) (fp : FsPath → Option (List Char × Nat))
        (files : List FsPath), (∀ p, moveOk p = true) →
        ((runVid moveOk fp [] files).1.map Prod.fst).Nodup ∧
        ∀ h p sz, dictGet (runVid moveOk fp [] files).1 h = some (p, sz) →
          fp p = some (h, sz) ∧ p ∈ files ∧
          ∀ g ∈ files, ∀ sz2, fp g = some (h, sz2) → depth g ≤ depth p) := by
  constructor
  · intro moveOk fp files hmo
    have hI0 : imgInvariant fp [] [] := by
      refine ⟨List.nodup_nil, ?_, ?_, ?_⟩
      · intro e he
        cases he
      · intro e he
        cases he
      · intro g hg
        cases hg
    have hI := runImg_invariant hmo files [] [] hI0
    rw [List.nil_append] at hI
    obtain ⟨hnd, hFrom, hDeep, _⟩ := hI
    refine ⟨hnd, ?_⟩
    intro h p hget
    have hm := dictGet_mem hget
    exact ⟨(hFrom (h, p) hm).1, (hFrom (h, p) hm).2,
      fun g hg hfg => hDeep (h, p) hm g hg hfg⟩
  · intro moveOk fp files hmo
    have hI0 : vidInvariant fp [] [] := by
      refine ⟨List.nodup_nil, ?_, ?_, ?_⟩
      · intro e he
        cases he
      · intro e he
        cases he
      · intro g hg
        cases hg
    have hI := runVid_invariant hmo files [] [] hI0
    rw [List.nil_append] at hI
    obtain ⟨hnd, hFrom, hDeep, _⟩ := hI
    refine ⟨hnd, ?_⟩
    intro h p sz hget
    have hm := dictGet_mem hget
    exact ⟨(hFrom (h, (p, sz)) hm).1, (hFrom (h, (p, sz)) hm).2,
      fun g hg sz2 hfg => hDeep (h, (p, sz)) hm g hg sz2 hfg⟩

/-- Witness for C2 on a concrete two-file stream in each pipeline. -/
theorem C2_survivor_table_invariant_witness :
    (∀ p : FsPath, (fun _ : FsPath => true) p = true) ∧
    (((runImg (fun _ => true) (fun _ => some ([] : List Bool)) []
        [['a'], ['b', '/', 'c']]).1.map Prod.fst).Nodup ∧
      ∀ h p, dictGet (runImg (fun _ => true)
          (fun _ => some ([] : List Bool)) [] [['a'], ['b', '/', 'c']]).1 h
          = some p →
        (fun _ : FsPath => some ([] : List Bool)) p = some h ∧
        p ∈ [['a'], ['b', '/', 'c']] ∧
        ∀ g ∈ [['a'], ['b', '/', 'c']],
          (fun _ : FsPath => some ([] : List Bool)) g = some h →
            depth g ≤ depth p) ∧
    (((runVid (fun _ => true) (fun _ => some ((['h'], 9) : List Char × Nat))
        [] [['a'], ['b', '/', 'c']]).1.map Prod.fst).Nodup ∧
      ∀ h p sz, dictGet (runVid (fun _ => true)
          (fun _ => some ((['h'], 9) : List Char × Nat)) []
          [['a'], ['b', '/', 'c']]).1 h = some (p, sz) →
        (fun _ : FsPath => some ((['h'], 9) : List Char × Nat)) p
          = some (h, sz) ∧
        p ∈ [['a'], ['b', '/', 'c']] ∧
        ∀ g ∈ [['a'], ['b', '/', 'c']], ∀ sz2,
          (fun _ : FsPath => some ((['h'], 9) : List Char × Nat)) g
            = some (h, sz2) → depth g ≤ depth p) :=
  ⟨fun _ => rfl,
   C2_survivor_table_invariant.1 (fun _ => true)
     (fun _ => some ([] : List Bool)) [['a'], ['b', '/', 'c']]
     (fun _ => rfl),
   C2_survivor_table_invariant.2 (fun _ => true)
     (fun _ => some ((['h'], 9) : List Char × Nat)) [['a'], ['b', '/', 'c']]
     (fun _ => rfl)⟩
